import Mathlib

/-!
# Verification of the phirust symbol transpiler

A shallow embedding of `src/main.rs` (`SymbolTranspiler`) and
`src/threat_detector.rs` (`ThreatDetector`) of the phirust-transpiler
repository, together with proofs and refutations of the specification's
claims about them.

Source text is modelled as `List Char` (the characters of a Rust `&str`);
byte-level code (`contains_symbols`, `sort_by_key(Reverse(s.len()))`) is
modelled through an explicit UTF-8 encoder.  The compiled regex
`(esc₁|esc₂|…)` built by `configure` — an alternation of escaped literal
keys, each wrapped in word-boundary anchors when the key is made of
alphanumeric characters and underscores — is modelled by the ordered list
of keys together with the leftmost, first-alternative match semantics of
the `regex` crate, which `replaceAllGo` implements directly.
-/

/-- UTF-8 encoding of a single character (the bytes Rust's `str::bytes`
yields for it), as natural numbers below 256. -/
def utf8Bytes (c : Char) : List Nat :=
  let n := c.toNat
  if n < 0x80 then [n]
  else if n < 0x800 then [0xC0 + n / 64, 0x80 + n % 64]
  else if n < 0x10000 then
    [0xE0 + n / 4096, 0x80 + (n / 64) % 64, 0x80 + n % 64]
  else
    [0xF0 + n / 262144, 0x80 + (n / 4096) % 64, 0x80 + (n / 64) % 64, 0x80 + n % 64]

/-- The UTF-8 byte stream of a string, as `str::bytes` yields it. -/
def strBytes : List Char → List Nat
  | [] => []
  | c :: t => utf8Bytes c ++ strBytes t

/-- Rust's `s.len()` on a `String`: its length in UTF-8 bytes. -/
def byteLen (s : List Char) : Nat := (strBytes s).length

/-- Model of Rust's `char::is_alphanumeric` (Unicode `Alphabetic` or
`Number`), restricted to the ASCII range plus the Greek-and-Coptic letter
block (which contains every non-ASCII alphanumeric character appearing in
the symbol sets at issue, such as `λ`); characters outside these ranges
are classified as non-alphanumeric, as `⚡` (U+26A1) is. -/
def isAlphanumeric (c : Char) : Bool :=
  c.isAlphanum || (0x370 ≤ c.toNat && c.toNat ≤ 0x3FF)

/-- Model of a word character for the regex crate's `\b` (Unicode `\w`),
on the same ranges as `isAlphanumeric`. -/
def isWordChar (c : Char) : Bool :=
  isAlphanumeric c || c == '_'

/-- Whether the optional character on one side of a position is a word
character (`none` is the edge of the text and counts as non-word). -/
def wordOpt : Option Char → Bool
  | none => false
  | some c => isWordChar c

/-- A `\b` word boundary holds at a position iff exactly one of the two
surrounding characters is a word character. -/
def isBoundary (l r : Option Char) : Bool :=
  wordOpt l != wordOpt r

/-- From `main.rs` line 50: a key is wrapped in `\b…\b` iff every character is
alphanumeric or an underscore
(`s.chars().all(|c| c.is_alphanumeric() || c == '_')`). -/
def isIdentLike (k : List Char) : Bool :=
  k.all (fun c => isAlphanumeric c || c == '_')

/-- Does `p` occur at the very start of `t` (`str::starts_with` for the
literal alternative `p` of the compiled pattern)? -/
def startsWith : List Char → List Char → Bool
  | [], _ => true
  | _ :: _, [] => false
  | a :: p, b :: t => a == b && startsWith p t

/-- Membership of a byte in the `AHashSet<u8>` of symbol bytes, which is
modelled as the list of its elements (`AHashSet::contains`). -/
def containsByte (bytes : List Nat) (b : Nat) : Bool :=
  match bytes with
  | [] => false
  | x :: t => x == b || containsByte t b

/-- A symbol mapping entry: key and replacement (`AHashMap<String, String>`
is modelled as an association list with distinct keys). -/
abbrev KV := List Char × List Char

/-- Model of `AHashMap::get` on the mapping table. -/
def lookupKV (m : List KV) (k : List Char) : Option (List Char) :=
  match m with
  | [] => none
  | (k', v) :: t => if k' == k then some v else lookupKV t k

/-- One step of the insertion sort realising
`symbols.sort_by_key(|s| std::cmp::Reverse(s.len()))` (`main.rs` line 46):
insert a key in front of the first strictly byte-shorter element, keeping
descending byte length. -/
def insertByDescLen (k : List Char) : List (List Char) → List (List Char)
  | [] => [k]
  | a :: t => if byteLen a < byteLen k then k :: a :: t else a :: insertByDescLen k t

/-- Sort the keys by descending byte length (`sort_by_key(Reverse(s.len()))`;
the tie order among equal-length keys is immaterial, see
`transpile_deterministic`). -/
def sortByDescLen : List (List Char) → List (List Char)
  | [] => []
  | a :: t => insertByDescLen a (sortByDescLen t)

/-- From `threat_detector.rs` lines 9–16: the fixed denylist handed to
`AhoCorasick::new`. -/
def threats : List String :=
  ["eval(", "eval (", "exec(", "exec (", "compile(", "compile (",
   "getattr(__builtins__", "getattr(__builtins__,", "globals(", "globals (",
   "locals(", "locals (", "os.system(", "os.system (", "subprocess.",
   "__import__", "vars(", "vars (", "dir(", "dir (", "open(", "open (",
   "input(", "raw_input("]

/-- Multi-pattern substring search: does any of `pats` occur in `text`?
This is the semantics of `AhoCorasick::is_match`, realised by trying every
pattern at every position (all the denylist patterns are pure ASCII, so
byte-level and character-level substring search coincide). -/
def isMatch (pats : List (List Char)) (text : List Char) : Bool :=
  pats.any (fun p => startsWith p text) ||
    match text with
    | [] => false
    | _ :: rest => isMatch pats rest

/-- Model of `ThreatDetector::is_dangerous` (`threat_detector.rs` lines 24–26). -/
def isDangerous (text : List Char) : Bool :=
  isMatch (threats.map String.data) text

/-- The state of a `SymbolTranspiler` (`main.rs` lines 12–16); the
compiled `Regex` is modelled by its ordered list of alternatives (keys),
whose boundary anchors are recovered from `isIdentLike`. -/
structure SymbolTranspiler where
  mappings : List KV
  pattern : Option (List (List Char))
  symbol_bytes : Option (List Nat)
deriving DecidableEq

/-- Model of `SymbolTranspiler::new` (`main.rs` lines 19–25). -/
def SymbolTranspiler.new : SymbolTranspiler :=
  { mappings := [], pattern := none, symbol_bytes := none }

/-- From `main.rs` lines 35–42: the set of bytes above 127 occurring in any
key of the mapping. -/
def symbolBytesOf : List KV → List Nat
  | [] => []
  | (k, _) :: t => (strBytes k).filter (fun b => 127 < b) ++ symbolBytesOf t

/-- Model of `SymbolTranspiler::configure` (`main.rs` lines 27–64), with the
external call `Regex::new` abstracted as `regexNew`: on the alternation of
escaped literals that `configure` builds, `Regex::new` is fallible only
through its compiled-size resource limit, so the model takes the
compilation outcome as a parameter (`some` = success, yielding the
compiled alternation; `none` = failure).  Returns the `Result` together
with the state of `self` after the call; note that `self.mappings` and
`self.symbol_bytes` are assigned before the fallible compilation, and
`self.pattern` only after it succeeds. -/
def configureWith (regexNew : List (List Char) → Option (List (List Char)))
    (st : SymbolTranspiler) (mappings : List KV) :
    Except String Unit × SymbolTranspiler :=
  let st := { st with mappings := mappings }
  if mappings.isEmpty then
    (Except.ok (), { st with pattern := none, symbol_bytes := none })
  else
    let st := { st with symbol_bytes := some (symbolBytesOf mappings) }
    let symbols := sortByDescLen (mappings.map Prod.fst)
    match regexNew symbols with
    | some pat => (Except.ok (), { st with pattern := some pat })
    | none => (Except.error "Regex compilation failed", st)

/-- Model of `SymbolTranspiler::configure` in the run where `Regex::new` succeeds
(the only possible outcome below the regex size limit, since the pattern
is an alternation of escaped literals and always well-formed). -/
def SymbolTranspiler.configure (st : SymbolTranspiler) (mappings : List KV) :
    Except String Unit × SymbolTranspiler :=
  configureWith (fun symbols => some symbols) st mappings

/-- Model of `SymbolTranspiler::contains_symbols` (`main.rs` lines 66–81): scan the
source bytes (the 64-byte chunking is plain iteration) for a byte above
127 that belongs to the symbol-byte set. -/
def contains_symbols (st : SymbolTranspiler) (source : List Char) : Bool :=
  match st.symbol_bytes with
  | some bytes => (strBytes source).any (fun b => decide (127 < b) && containsByte bytes b)
  | none => false

/-- Does the alternative `k` of the compiled pattern match at the current
position?  `prev` is the character just before the position in the
original source (`none` at the start of the text).  An alternative is the
escaped literal `k`, wrapped in `\b…\b` exactly when `isIdentLike k`
(`main.rs` lines 48–56), so it matches iff `k` starts here and, when
anchored, a word boundary holds on both sides of the matched span. -/
def altMatches (prev : Option Char) (text : List Char) (k : List Char) : Bool :=
  startsWith k text &&
    (!(isIdentLike k) ||
      match k with
      | [] => isBoundary prev text.head?
      | _ :: _ => isBoundary prev k.head? && isBoundary k.getLast? ((List.drop k.length text).head?))

/-- The alternative the regex engine selects at the current position:
the regex crate's leftmost-first semantics tries the alternatives of
`(esc₁|esc₂|…)` in order and takes the first that matches. -/
def findAlt (alts : List (List Char)) (prev : Option Char) (text : List Char) :
    Option (List Char) :=
  alts.find? (fun k => altMatches prev text k)

/-- The `replace_all` closure (`main.rs` lines 94–106): look the matched
text up in the mapping; a dangerous replacement under active security
sets the `blocked` flag (second component) and emits `SECURITY_BLOCKED`;
an unknown match (impossible for a pattern built from the keys) is
emitted unchanged. -/
def applyRepl (m : List KV) (bypass_security : Bool) (matched : List Char) :
    List Char × Bool :=
  match lookupKV m matched with
  | some replacement =>
      if !bypass_security && isDangerous replacement then
        ("SECURITY_BLOCKED".data, true)
      else (replacement, false)
  | none => (matched, false)

/-- The scan of `Regex::replace_all` (`main.rs` line 94): walk the source
left to right; at each position (tracked through the previous source
character `prev`) take the leftmost-first match, emit its replacement and
consume the matched span (`skip` counts matched characters still to be
consumed, during which no new match may start — matches are
non-overlapping and replacements are not rescanned); where no alternative
matches, copy the character.  Accumulates the emitted text and the
`blocked` flag of the closure. -/
def replaceAllGo (alts : List (List Char)) (m : List KV) (bypass_security : Bool) :
    Nat → Option Char → List Char → List Char × Bool
  | _ + 1, _, [] => ([], false)
  | 0, prev, [] =>
      match findAlt alts prev [] with
      | some k => applyRepl m bypass_security k
      | none => ([], false)
  | n + 1, _, c :: rest => replaceAllGo alts m bypass_security n (some c) rest
  | 0, prev, c :: rest =>
      match findAlt alts prev (c :: rest) with
      | some [] =>
          let r := applyRepl m bypass_security []
          let t := replaceAllGo alts m bypass_security 0 (some c) rest
          (r.1 ++ c :: t.1, r.2 || t.2)
      | some (kh :: kt) =>
          let r := applyRepl m bypass_security (kh :: kt)
          let t := replaceAllGo alts m bypass_security kt.length (some c) rest
          (r.1 ++ t.1, r.2 || t.2)
      | none =>
          let t := replaceAllGo alts m bypass_security 0 (some c) rest
          (c :: t.1, t.2)

/-- Model of `pattern.replace_all(source, closure)` together with the `blocked`
flag the closure leaves behind (`main.rs` lines 93–106). -/
def replaceAll (alts : List (List Char)) (m : List KV) (bypass_security : Bool)
    (source : List Char) : List Char × Bool :=
  replaceAllGo alts m bypass_security 0 none source

/-- From `main.rs` lines 88–112: the body of `transpile` after the fast-path
precheck — the full substitution pipeline.  A missing pattern returns the
source unchanged; a set `blocked` flag turns the whole call into the
security error, discarding the substituted text. -/
def substituteAll (st : SymbolTranspiler) (source : List Char)
    (bypass_security : Bool) : Except String (List Char) :=
  match st.pattern with
  | none => Except.ok source
  | some alts =>
      let r := replaceAll alts st.mappings bypass_security source
      if r.2 then Except.error "Security: Dangerous pattern detected during transpilation"
      else Except.ok r.1

/-- Model of `SymbolTranspiler::transpile` (`main.rs` lines 83–113): if the
byte precheck finds none of the symbol bytes, return the source unchanged;
otherwise run the full substitution pipeline. -/
def transpile (st : SymbolTranspiler) (source : List Char)
    (bypass_security : Bool) : Except String (List Char) :=
  if contains_symbols st source = false then Except.ok source
  else substituteAll st source bypass_security

/-- The transpiler configured with the single mapping "if" → "WHEN" (an
all-ASCII key set, so its symbol-byte set is empty). -/
def cfgIf : SymbolTranspiler :=
  (SymbolTranspiler.new.configure [("if".data, "WHEN".data)]).2

/-- The transpiler configured with the single mapping "λ" → "lambda". -/
def cfgLam : SymbolTranspiler :=
  (SymbolTranspiler.new.configure [("λ".data, "lambda".data)]).2

/-- The transpiler configured with the mapping {"ab":"X","abc":"Y"}. -/
def cfgAb : SymbolTranspiler :=
  (SymbolTranspiler.new.configure [("ab".data, "X".data), ("abc".data, "Y".data)]).2

/-- A transpiler state configured with {"λ":"lambda"}, the configuration
in place before the failing `configure` call of
`configure_failure_partial_state`. -/
def cfgPrior : SymbolTranspiler :=
  (SymbolTranspiler.new.configure [("λ".data, "lambda".data)]).2

/-- The transpiler configured with the single mapping "⚡" → "eval(". -/
def cfgZap : SymbolTranspiler :=
  (SymbolTranspiler.new.configure [("⚡".data, "eval(".data)]).2

/-- The mapping table of `cfgZap`. -/
def zapMap : List KV := [("⚡".data, "eval(".data)]

/-- The character-wise substitution "⚡" ↦ "eval(". -/
def zapSubst (c : Char) : List Char :=
  if c = '⚡' then "eval(".data else [c]

/-- A character below 0x80 encodes to the single identical byte. -/
theorem utf8Bytes_of_lt_128 (c : Char) (h : c.toNat < 128) : utf8Bytes c = [c.toNat] := by
  simp [utf8Bytes, h]

/-- Every byte of a pure-ASCII text is below 128. -/
theorem strBytes_ascii (s : List Char) (h : ∀ c ∈ s, c.toNat < 128) :
    ∀ b ∈ strBytes s, b < 128 := by
  induction s with
  | nil => intro b hb; simp [strBytes] at hb
  | cons c t ih =>
      intro b hb
      rw [strBytes, utf8Bytes_of_lt_128 c (h c (by simp))] at hb
      rcases List.mem_append.1 hb with hb | hb
      · simp at hb; subst hb; exact h c (by simp)
      · exact ih (fun c hc => h c (by simp [hc])) b hb

/-- The precheck finds nothing in a pure-ASCII source, whatever the
symbol-byte set is: every condition it tests requires a byte above 127. -/
theorem contains_symbols_ascii (st : SymbolTranspiler) (s : List Char)
    (h : ∀ c ∈ s, c.toNat < 128) : contains_symbols st s = false := by
  unfold contains_symbols
  cases hb : st.symbol_bytes with
  | none => rfl
  | some bytes =>
      simp only [List.any_eq_false]
      intro b hbmem
      have : b < 128 := strBytes_ascii s h b hbmem
      simp [Nat.not_lt.2 (by omega : b ≤ 127)]

/-- C10: for every configured mapping and every pure-ASCII source,
`transpile` succeeds and returns the source unchanged — the byte precheck
only ever looks for bytes above 127, so no substitution is performed on
pure-ASCII input regardless of the configured symbols. -/
theorem transpile_ascii_noop (m : List KV) (s : List Char) (b : Bool)
    (h : ∀ c ∈ s, c.toNat < 128) :
    transpile (SymbolTranspiler.new.configure m).2 s b = Except.ok s := by
  unfold transpile
  rw [contains_symbols_ascii _ _ h]
  simp

/-- Witness for `transpile_ascii_noop` at the mapping {"λ":"x"} and the
source "abc". -/
theorem transpile_ascii_noop_witness :
    (∀ c ∈ "abc".data, c.toNat < 128) ∧
    transpile (SymbolTranspiler.new.configure [("λ".data, "x".data)]).2 "abc".data false
      = Except.ok "abc".data :=
  ⟨by decide, transpile_ascii_noop [("λ".data, "x".data)] "abc".data false (by decide)⟩

/-- C6: with an empty symbol mapping, `transpile` is a successful no-op on
every source: `configure` installs no pattern and no symbol-byte set, and
the precheck then always reports no symbols. -/
theorem transpile_empty_mapping (s : List Char) (b : Bool) :
    transpile (SymbolTranspiler.new.configure []).2 s b = Except.ok s := rfl

/-- C1: the fast-path precheck produces a false negative.  For the
mapping {"if":"WHEN"} and the source "if x:", `contains_symbols` reports
no symbols (the key has no byte above 127, so the symbol-byte set is
empty), `transpile` skips substitution and returns the input unchanged,
yet the full substitution pipeline run on the same input substitutes the
match and yields "WHEN x:" — the skipped result differs from the full
pipeline's result. -/
theorem precheck_false_negative :
    contains_symbols cfgIf "if x:".data = false ∧
    transpile cfgIf "if x:".data false = Except.ok "if x:".data ∧
    substituteAll cfgIf "if x:".data false = Except.ok "WHEN x:".data :=
  ⟨rfl, rfl, rfl⟩

/-- C4: evaluation of the boundary-rule claim on the code.  "gift" is
left unchanged, as claimed; but "if x:" is also left unchanged — the
ASCII-only key makes the byte precheck skip substitution — whereas the
claim demands "WHEN x:".  The last two conjuncts show the word-boundary
machinery itself behaves as claimed once the precheck is out of the way:
the full pipeline leaves "gift" unchanged and rewrites "if x:" to
"WHEN x:". -/
theorem boundary_rule_eval :
    transpile cfgIf "gift".data false = Except.ok "gift".data ∧
    transpile cfgIf "if x:".data false = Except.ok "if x:".data ∧
    substituteAll cfgIf "gift".data false = Except.ok "gift".data ∧
    substituteAll cfgIf "if x:".data false = Except.ok "WHEN x:".data :=
  ⟨rfl, rfl, rfl, rfl⟩

/-- C2, counterexample: `transpile` has no literal/comment protection, so
on "# λ comment\nλ x" it substitutes the occurrence inside the line
comment as well, producing "# lambda comment\nlambda x" — not the claimed
"# λ comment\nlambda x" (the two outputs differ). -/
theorem literal_protection_counterexample :
    transpile cfgLam "# λ comment\nλ x".data false
      = Except.ok "# lambda comment\nlambda x".data ∧
    "# lambda comment\nlambda x" ≠ "# λ comment\nlambda x" :=
  ⟨rfl, by decide⟩

/-- C2, amended: occurrences of mapped symbols are substituted uniformly,
inside string literals and line comments as much as in code regions — the
pipeline performs no literal-region protection: {"λ":"lambda"} applied to
"# λ comment\nλ x" yields "# lambda comment\nlambda x". -/
theorem comment_occurrence_substituted :
    transpile cfgLam "# λ comment\nλ x".data false
      = Except.ok "# lambda comment\nlambda x".data := rfl

/-- C5, counterexample: {"ab":"X","abc":"Y"} applied to "abcd" yields
"abcd" unchanged, not the claimed "Yd": the all-ASCII key set makes the
byte precheck skip substitution entirely. -/
theorem longest_match_counterexample :
    transpile cfgAb "abcd".data false = Except.ok "abcd".data ∧ "abcd" ≠ "Yd" :=
  ⟨rfl, by decide⟩

/-- C5, amended: the keys are indeed ordered longest-first ("abc" before
"ab" in the compiled alternation), but {"ab":"X","abc":"Y"} applied to
"abcd" yields "abcd" unchanged — never "Xcd", but not "Yd" either: the
all-ASCII key set makes the byte precheck skip substitution, and even in
the full pipeline both keys are alphanumeric, so their word-boundary
anchors reject every match inside "abcd". -/
theorem longest_match_amended :
    sortByDescLen ["ab".data, "abc".data] = ["abc".data, "ab".data] ∧
    transpile cfgAb "abcd".data false = Except.ok "abcd".data ∧
    substituteAll cfgAb "abcd".data false = Except.ok "abcd".data :=
  ⟨rfl, rfl, rfl⟩

/-- C8: a failing `configure` leaves a partially updated state.  When the
pattern compilation fails (modelled by the `regexNew` parameter returning
`none`, as `Regex::new` does when the escaped alternation exceeds its
compiled-size limit), `configure` has already overwritten `mappings` and
`symbol_bytes`, so the state after the failing call differs from the
state before it, observably: the prior configuration rewrote "λ" to
"lambda", the post-failure state leaves "λ" unchanged (its symbol-byte
set is the new, empty one). -/
theorem configure_failure_partial_state :
    (configureWith (fun _ => none) cfgPrior [("a".data, "b".data)]).1
      = Except.error "Regex compilation failed" ∧
    (configureWith (fun _ => none) cfgPrior [("a".data, "b".data)]).2 ≠ cfgPrior ∧
    transpile (configureWith (fun _ => none) cfgPrior [("a".data, "b".data)]).2
      "λ".data false = Except.ok "λ".data ∧
    transpile cfgPrior "λ".data false = Except.ok "lambda".data :=
  ⟨rfl, by decide, rfl, rfl⟩

/-- The test `startsWith p t` holds exactly when `t` extends `p`. -/
theorem startsWith_iff (p t : List Char) :
    startsWith p t = true ↔ ∃ r, t = p ++ r := by
  induction p generalizing t with
  | nil => simp [startsWith]
  | cons a p ih =>
      cases t with
      | nil => simp [startsWith]
      | cons b t =>
          simp only [startsWith, Bool.and_eq_true, beq_iff_eq, ih, List.cons_append,
            List.cons.injEq]
          constructor
          · rintro ⟨rfl, r, rfl⟩; exact ⟨r, rfl, rfl⟩
          · rintro ⟨r, rfl, rfl⟩; exact ⟨rfl, r, rfl⟩

/-- The scan `isMatch` finds exactly the texts containing one of the patterns as a
contiguous substring. -/
theorem isMatch_iff (pats : List (List Char)) (text : List Char) :
    isMatch pats text = true ↔ ∃ p ∈ pats, ∃ l r, text = l ++ p ++ r := by
  induction text with
  | nil =>
      rw [isMatch]
      simp only [Bool.or_false, List.any_eq_true, startsWith_iff]
      constructor
      · rintro ⟨p, hp, r, hr⟩
        rcases List.append_eq_nil.1 hr.symm with ⟨rfl, rfl⟩
        exact ⟨[], hp, [], [], rfl⟩
      · rintro ⟨p, hp, l, r, hlr⟩
        rcases List.append_eq_nil.1 (List.append_eq_nil.1 hlr.symm).1 with ⟨rfl, rfl⟩
        exact ⟨[], hp, [], rfl⟩
  | cons c rest ih =>
      rw [isMatch]
      simp only [Bool.or_eq_true, List.any_eq_true, startsWith_iff, ih]
      constructor
      · rintro (⟨p, hp, r, hr⟩ | ⟨p, hp, l, r, hlr⟩)
        · exact ⟨p, hp, [], r, by simpa using hr⟩
        · exact ⟨p, hp, c :: l, r, by simp [hlr]⟩
      · rintro ⟨p, hp, l, r, hlr⟩
        cases l with
        | nil => exact Or.inl ⟨p, hp, r, by simpa using hlr⟩
        | cons x xs =>
            simp only [List.cons_append, List.cons.injEq] at hlr
            exact Or.inr ⟨p, hp, xs, r, hlr.2⟩

/-- C7: `is_dangerous` returns true exactly when the text contains, as a
contiguous substring, at least one entry of the fixed denylist; the match
is literal (hence case-sensitive) and has no boundary condition. -/
theorem isDangerous_iff_substring (text : List Char) :
    isDangerous text = true ↔ ∃ t ∈ threats, ∃ l r, text = l ++ t.data ++ r := by
  rw [isDangerous, isMatch_iff]
  constructor
  · rintro ⟨p, hp, l, r, hlr⟩
    rcases List.mem_map.1 hp with ⟨t, ht, rfl⟩
    exact ⟨t, ht, l, r, hlr⟩
  · rintro ⟨t, ht, l, r, hlr⟩
    exact ⟨t.data, List.mem_map.2 ⟨t, ht, rfl⟩, l, r, hlr⟩

/-- Every byte of a character of a text occurs among the text's bytes. -/
theorem mem_strBytes_of_mem (s : List Char) (c : Char) (hc : c ∈ s) :
    ∀ b ∈ utf8Bytes c, b ∈ strBytes s := by
  induction s with
  | nil => cases hc
  | cons d t ih =>
      intro b hb
      rw [strBytes, List.mem_append]
      rcases List.mem_cons.1 hc with rfl | hc
      · exact Or.inl hb
      · exact Or.inr (ih hc b hb)

/-- Any source containing "⚡" passes the byte precheck of `cfgZap`. -/
theorem contains_symbols_cfgZap (s : List Char) (h : '⚡' ∈ s) :
    contains_symbols cfgZap s = true := by
  have h226 : (226 : Nat) ∈ strBytes s :=
    mem_strBytes_of_mem s '⚡' h 226 (by decide)
  show (strBytes s).any _ = true
  exact List.any_eq_true.2 ⟨226, h226, by decide⟩

/-- Unfolding `replaceAllGo` where the engine finds no match at the
current position: the character is copied and the scan moves on. -/
theorem replaceAllGo_no_match (alts : List (List Char)) (m : List KV) (b : Bool)
    (prev : Option Char) (c : Char) (rest : List Char)
    (h : findAlt alts prev (c :: rest) = none) :
    replaceAllGo alts m b 0 prev (c :: rest)
      = (c :: (replaceAllGo alts m b 0 (some c) rest).1,
         (replaceAllGo alts m b 0 (some c) rest).2) := by
  rw [replaceAllGo, h]

/-- Unfolding `replaceAllGo` where the engine matches a non-empty
alternative: its replacement is emitted and the matched span consumed. -/
theorem replaceAllGo_match_step (alts : List (List Char)) (m : List KV) (b : Bool)
    (prev : Option Char) (c : Char) (rest : List Char) (kh : Char) (kt : List Char)
    (h : findAlt alts prev (c :: rest) = some (kh :: kt)) :
    replaceAllGo alts m b 0 prev (c :: rest)
      = ((applyRepl m b (kh :: kt)).1 ++ (replaceAllGo alts m b kt.length (some c) rest).1,
         (applyRepl m b (kh :: kt)).2 || (replaceAllGo alts m b kt.length (some c) rest).2) := by
  rw [replaceAllGo, h]

/-- Unfolding `replaceAllGo` where the engine matches the empty
alternative: its replacement is emitted before the current character. -/
theorem replaceAllGo_empty_match (alts : List (List Char)) (m : List KV) (b : Bool)
    (prev : Option Char) (c : Char) (rest : List Char)
    (h : findAlt alts prev (c :: rest) = some []) :
    replaceAllGo alts m b 0 prev (c :: rest)
      = ((applyRepl m b []).1 ++ c :: (replaceAllGo alts m b 0 (some c) rest).1,
         (applyRepl m b []).2 || (replaceAllGo alts m b 0 (some c) rest).2) := by
  rw [replaceAllGo, h]

/-- Unfolding `replaceAllGo` at the end of the text. -/
theorem replaceAllGo_nil (alts : List (List Char)) (m : List KV) (b : Bool)
    (prev : Option Char) :
    replaceAllGo alts m b 0 prev []
      = (match findAlt alts prev [] with
         | some k => applyRepl m b k
         | none => ([], false)) := by
  rw [replaceAllGo]

/-- The denylist flags the replacement "eval(". -/
theorem isDangerous_eval : isDangerous "eval(".data = true := by decide

/-- The single unanchored alternative "⚡" matches exactly at the
occurrences of the character. -/
theorem findAlt_cfgZap (prev : Option Char) (c : Char) (rest : List Char) :
    findAlt [['⚡']] prev (c :: rest) = if c = '⚡' then some ['⚡'] else none := by
  by_cases hc : c = '⚡'
  · subst hc
    rfl
  · have hne : ('⚡' == c) = false := by
      simp only [beq_eq_false_iff_ne, ne_eq]
      exact fun h => hc h.symm
    simp [findAlt, List.find?, altMatches, startsWith, hne, hc]

/-- With security bypassed, the scan over the `cfgZap` pattern replaces
every "⚡" by "eval(" and never sets the blocked flag. -/
theorem replaceAllGo_cfgZap_bypass (s : List Char) : ∀ prev,
    replaceAllGo [['⚡']] zapMap true 0 prev s = (s.flatMap zapSubst, false) := by
  induction s with
  | nil => intro prev; rfl
  | cons c rest ih =>
      intro prev
      by_cases hc : c = '⚡'
      · subst hc
        rw [replaceAllGo_match_step [['⚡']] zapMap true prev '⚡' rest '⚡' []
            (by rw [findAlt_cfgZap]; simp)]
        simp only [List.length_nil]
        rw [ih (some '⚡')]
        rfl
      · rw [replaceAllGo_no_match [['⚡']] zapMap true prev c rest
            (by rw [findAlt_cfgZap]; simp [hc]), ih (some c)]
        simp [zapSubst, hc]

/-- With security active, the scan over the `cfgZap` pattern sets the
blocked flag exactly when the source contains "⚡" (the replacement
"eval(" is flagged dangerous at every match). -/
theorem replaceAllGo_cfgZap_blocked (s : List Char) : ∀ prev,
    (replaceAllGo [['⚡']] zapMap false 0 prev s).2 = decide ('⚡' ∈ s) := by
  induction s with
  | nil => intro prev; simp [replaceAllGo_nil]; rfl
  | cons c rest ih =>
      intro prev
      by_cases hc : c = '⚡'
      · subst hc
        rw [replaceAllGo_match_step [['⚡']] zapMap false prev '⚡' rest '⚡' []
            (by rw [findAlt_cfgZap]; simp)]
        simp [show (applyRepl zapMap false ['⚡']).2 = true from rfl]
      · rw [replaceAllGo_no_match [['⚡']] zapMap false prev c rest
            (by rw [findAlt_cfgZap]; simp [hc]), ih (some c)]
        simp only [List.mem_cons, decide_eq_decide]
        exact ⟨Or.inr, fun h => h.elim (fun h => absurd h.symm hc) id⟩

/-- C3: for every source containing "⚡", the mapping {"⚡":"eval("}
makes `transpile` fail with the blocked-substitution error when security
is active (no partial output is returned as success), and succeed with
every "⚡" replaced by the dangerous replacement "eval(" when security is
bypassed. -/
theorem security_gate (s : List Char) (h : '⚡' ∈ s) :
    transpile cfgZap s false
      = Except.error "Security: Dangerous pattern detected during transpilation" ∧
    transpile cfgZap s true = Except.ok (s.flatMap zapSubst) := by
  have hz : cfgZap = ⟨zapMap, some [['⚡']], some [226, 154, 161]⟩ := rfl
  constructor
  · rw [transpile, contains_symbols_cfgZap s h, hz]
    show (if (replaceAll [['⚡']] zapMap false s).2 then _ else _) = _
    rw [replaceAll, replaceAllGo_cfgZap_blocked s none]
    simp [h]
  · rw [transpile, contains_symbols_cfgZap s h, hz]
    show (if (replaceAll [['⚡']] zapMap true s).2 then _
          else Except.ok (replaceAll [['⚡']] zapMap true s).1) = _
    rw [replaceAll, replaceAllGo_cfgZap_bypass s none]
    rfl

/-- Witness for `security_gate` at the one-character source "⚡". -/
theorem security_gate_witness :
    '⚡' ∈ ['⚡'] ∧
    transpile cfgZap ['⚡'] false
      = Except.error "Security: Dangerous pattern detected during transpilation" ∧
    transpile cfgZap ['⚡'] true = Except.ok "eval(".data :=
  ⟨by decide, (security_gate ['⚡'] (by decide)).1, (security_gate ['⚡'] (by decide)).2⟩

/-- Every character encodes to at least one UTF-8 byte. -/
theorem utf8Bytes_ne_nil (c : Char) : utf8Bytes c ≠ [] := by
  unfold utf8Bytes
  by_cases h1 : c.toNat < 128
  · simp [h1]
  · by_cases h2 : c.toNat < 2048
    · simp [h1, h2]
    · by_cases h3 : c.toNat < 65536
      · simp [h1, h2, h3]
      · simp [h1, h2, h3]

/-- Unfolding `byteLen` at the empty string. -/
theorem byteLen_nil : byteLen ([] : List Char) = 0 := rfl

/-- Unfolding `byteLen` on a cons cell. -/
theorem byteLen_cons (c : Char) (t : List Char) :
    byteLen (c :: t) = (utf8Bytes c).length + byteLen t := by
  simp [byteLen, strBytes]

/-- A non-empty string has positive byte length. -/
theorem byteLen_pos (c : Char) (t : List Char) : 0 < byteLen (c :: t) := by
  rw [byteLen_cons]
  have := List.length_pos.2 (utf8Bytes_ne_nil c)
  omega

/-- Two prefixes of the same text with equal byte length are equal: the
key selected at a match position is determined by its `s.len()` sort key. -/
theorem startsWith_eq_of_byteLen :
    ∀ (k₁ k₂ t : List Char), startsWith k₁ t = true → startsWith k₂ t = true →
      byteLen k₁ = byteLen k₂ → k₁ = k₂ := by
  intro k₁
  induction k₁ with
  | nil =>
      intro k₂ t _ _ hb
      cases k₂ with
      | nil => rfl
      | cons b t₂ =>
          rw [byteLen_nil] at hb
          have := byteLen_pos b t₂
          omega
  | cons a t₁ ih =>
      intro k₂ t hs₁ hs₂ hb
      cases k₂ with
      | nil =>
          rw [byteLen_nil] at hb
          have := byteLen_pos a t₁
          omega
      | cons b t₂ =>
          cases t with
          | nil => simp [startsWith] at hs₁
          | cons c ts =>
              simp only [startsWith, Bool.and_eq_true, beq_iff_eq] at hs₁ hs₂
              obtain ⟨rfl, hs₁⟩ := hs₁
              obtain ⟨rfl, hs₂⟩ := hs₂
              rw [byteLen_cons, byteLen_cons] at hb
              have : byteLen t₁ = byteLen t₂ := by omega
              rw [ih t₂ ts hs₁ hs₂ this]

/-- A successful `find?` returns a list element satisfying the predicate. -/
theorem find?_some_pred {α : Type} (p : α → Bool) :
    ∀ (l : List α) (k : α), l.find? p = some k → p k = true ∧ k ∈ l := by
  intro l
  induction l with
  | nil => intro k h; simp [List.find?] at h
  | cons a t ih =>
      intro k h
      cases hpa : p a with
      | true =>
          rw [List.find?_cons_of_pos t hpa] at h
          injection h with h
          subst h
          exact ⟨hpa, List.mem_cons_self a t⟩
      | false =>
          rw [List.find?_cons_of_neg t (by simp [hpa])] at h
          rcases ih k h with ⟨h1, h2⟩
          exact ⟨h1, List.mem_cons_of_mem a h2⟩

/-- On a list sorted by descending `f`, `find?` returns a satisfying
element of maximal `f` among all satisfying elements. -/
theorem find?_sorted_max {α : Type} (p : α → Bool) (f : α → Nat) :
    ∀ (l : List α) (k : α), l.Pairwise (fun x y => f y ≤ f x) →
      l.find? p = some k → ∀ x ∈ l, p x = true → f x ≤ f k := by
  intro l
  induction l with
  | nil => intro k _ h; simp [List.find?] at h
  | cons a t ih =>
      intro k hpw h x hx hpx
      rcases List.pairwise_cons.1 hpw with ⟨ha, hpt⟩
      cases hpa : p a with
      | true =>
          rw [List.find?_cons_of_pos t hpa] at h
          injection h with h
          subst h
          rcases List.mem_cons.1 hx with rfl | hx
          · exact le_refl _
          · exact ha x hx
      | false =>
          rw [List.find?_cons_of_neg t (by simp [hpa])] at h
          rcases List.mem_cons.1 hx with rfl | hx
          · rw [hpa] at hpx; cases hpx
          · exact ih k hpt h x hx hpx

/-- Inserting into the descending-length order is a permutation. -/
theorem insertByDescLen_perm (k : List Char) :
    ∀ l, (insertByDescLen k l).Perm (k :: l) := by
  intro l
  induction l with
  | nil => simp [insertByDescLen]
  | cons a t ih =>
      rw [insertByDescLen]
      by_cases hck : byteLen a < byteLen k
      · rw [if_pos hck]
      · rw [if_neg hck]
        exact (ih.cons a).trans (List.Perm.swap k a t)

/-- Inserting into a descending-length-sorted list keeps it sorted. -/
theorem insertByDescLen_pairwise (k : List Char) :
    ∀ l, l.Pairwise (fun x y => byteLen y ≤ byteLen x) →
      (insertByDescLen k l).Pairwise (fun x y => byteLen y ≤ byteLen x) := by
  intro l
  induction l with
  | nil => intro _; simp [insertByDescLen]
  | cons a t ih =>
      intro hpw
      rcases List.pairwise_cons.1 hpw with ⟨ha, hpt⟩
      rw [insertByDescLen]
      by_cases hck : byteLen a < byteLen k
      · rw [if_pos hck]
        refine List.pairwise_cons.2 ⟨?_, hpw⟩
        intro y hy
        rcases List.mem_cons.1 hy with rfl | hy
        · omega
        · have := ha y hy; omega
      · rw [if_neg hck]
        refine List.pairwise_cons.2 ⟨?_, ih hpt⟩
        intro y hy
        rcases List.mem_cons.1 ((insertByDescLen_perm k t).mem_iff.1 hy) with rfl | hy'
        · omega
        · exact ha y hy'

/-- The descending-length sort is a permutation of its input. -/
theorem sortByDescLen_perm : ∀ l, (sortByDescLen l).Perm l := by
  intro l
  induction l with
  | nil => simp [sortByDescLen]
  | cons a t ih =>
      rw [sortByDescLen]
      exact (insertByDescLen_perm a _).trans (ih.cons a)

/-- The descending-length sort orders by descending byte length. -/
theorem sortByDescLen_pairwise :
    ∀ l, (sortByDescLen l).Pairwise (fun x y => byteLen y ≤ byteLen x) := by
  intro l
  induction l with
  | nil => simp [sortByDescLen]
  | cons a t ih => exact insertByDescLen_pairwise a _ ih

/-- A matching alternative is in particular a prefix of the text at the
current position. -/
theorem altMatches_startsWith (prev : Option Char) (t k : List Char)
    (h : altMatches prev t k = true) : startsWith k t = true := by
  unfold altMatches at h
  simp only [Bool.and_eq_true] at h
  exact h.1

/-- The alternative the engine selects at a position depends only on the
set of keys, not on their order, as long as both orders are sorted by
descending byte length: among the keys matching at a position — all
prefixes of the same text — the selected one is the unique key of maximal
byte length. -/
theorem findAlt_congr (alts₁ alts₂ : List (List Char)) (hp : alts₁.Perm alts₂)
    (h₁ : alts₁.Pairwise (fun x y => byteLen y ≤ byteLen x))
    (h₂ : alts₂.Pairwise (fun x y => byteLen y ≤ byteLen x))
    (prev : Option Char) (t : List Char) :
    findAlt alts₁ prev t = findAlt alts₂ prev t := by
  unfold findAlt
  cases e₁ : alts₁.find? (fun k => altMatches prev t k) with
  | none =>
      cases e₂ : alts₂.find? (fun k => altMatches prev t k) with
      | none => rfl
      | some k₂ =>
          rcases find?_some_pred _ _ _ e₂ with ⟨hpk, hmem⟩
          exact absurd hpk (List.find?_eq_none.1 e₁ k₂ (hp.mem_iff.2 hmem))
  | some k₁ =>
      rcases find?_some_pred _ _ _ e₁ with ⟨hp₁, hm₁⟩
      cases e₂ : alts₂.find? (fun k => altMatches prev t k) with
      | none => exact absurd hp₁ (List.find?_eq_none.1 e₂ k₁ (hp.mem_iff.1 hm₁))
      | some k₂ =>
          rcases find?_some_pred _ _ _ e₂ with ⟨hp₂, hm₂⟩
          have hle₁ : byteLen k₂ ≤ byteLen k₁ :=
            find?_sorted_max _ byteLen alts₁ k₁ h₁ e₁ k₂ (hp.mem_iff.2 hm₂) hp₂
          have hle₂ : byteLen k₁ ≤ byteLen k₂ :=
            find?_sorted_max _ byteLen alts₂ k₂ h₂ e₂ k₁ (hp.mem_iff.1 hm₁) hp₁
          rw [startsWith_eq_of_byteLen k₁ k₂ t (altMatches_startsWith _ _ _ hp₁)
            (altMatches_startsWith _ _ _ hp₂) (le_antisymm hle₂ hle₁)]

/-- With distinct keys, `AHashMap::get` is independent of the order the
entries are stored in. -/
theorem lookupKV_perm :
    ∀ (l₁ l₂ : List KV), l₁.Perm l₂ → (l₁.map Prod.fst).Nodup →
      ∀ k, lookupKV l₁ k = lookupKV l₂ k := by
  intro l₁ l₂ hp
  induction hp with
  | nil => intro _ k; rfl
  | cons x p ih =>
      intro hnd k
      obtain ⟨xk, xv⟩ := x
      simp only [lookupKV]
      by_cases hxk : (xk == k) = true
      · rw [if_pos hxk, if_pos hxk]
      · rw [if_neg hxk, if_neg hxk]
        refine ih ?_ k
        simp only [List.map_cons, List.nodup_cons] at hnd
        exact hnd.2
  | swap x y t =>
      intro hnd k
      obtain ⟨xk, xv⟩ := x
      obtain ⟨yk, yv⟩ := y
      simp only [List.map_cons, List.nodup_cons, List.mem_cons] at hnd
      simp only [lookupKV]
      by_cases hy : (yk == k) = true
      · by_cases hx : (xk == k) = true
        · exact absurd ((beq_iff_eq.1 hy).trans (beq_iff_eq.1 hx).symm)
            (fun h => hnd.1 (Or.inl h))
        · rw [if_pos hy, if_neg hx, if_pos hy]
      · by_cases hx : (xk == k) = true
        · rw [if_neg hy, if_pos hx, if_pos hx]
        · rw [if_neg hy, if_neg hx, if_neg hx, if_neg hy]
  | trans p₁ p₂ ih₁ ih₂ =>
      intro hnd k
      rw [ih₁ hnd k]
      exact ih₂ (((p₁.map Prod.fst).nodup_iff).1 hnd) k

/-- The `replace_all` closure depends on the mapping table only through
`AHashMap::get`. -/
theorem applyRepl_congr (m₁ m₂ : List KV) (b : Bool) (k : List Char)
    (hL : ∀ k, lookupKV m₁ k = lookupKV m₂ k) :
    applyRepl m₁ b k = applyRepl m₂ b k := by
  unfold applyRepl
  rw [hL]

/-- Skipping a character still being consumed by a match. -/
theorem replaceAllGo_skip (alts : List (List Char)) (m : List KV) (b : Bool)
    (n : Nat) (prev : Option Char) (c : Char) (rest : List Char) :
    replaceAllGo alts m b (n + 1) prev (c :: rest)
      = replaceAllGo alts m b n (some c) rest := rfl

/-- The scan of `replace_all` depends on the compiled pattern only
through the alternative selected at each position, and on the mapping
table only through `AHashMap::get`. -/
theorem replaceAllGo_congr (alts₁ alts₂ : List (List Char)) (m₁ m₂ : List KV) (b : Bool)
    (hF : ∀ prev t, findAlt alts₁ prev t = findAlt alts₂ prev t)
    (hL : ∀ k, lookupKV m₁ k = lookupKV m₂ k) :
    ∀ (t : List Char) (skip : Nat) (prev : Option Char),
      replaceAllGo alts₁ m₁ b skip prev t = replaceAllGo alts₂ m₂ b skip prev t := by
  intro t
  induction t with
  | nil =>
      intro skip prev
      cases skip with
      | zero =>
          rw [replaceAllGo_nil, replaceAllGo_nil, hF]
          cases findAlt alts₂ prev [] with
          | none => rfl
          | some k => exact applyRepl_congr m₁ m₂ b k hL
      | succ n => rfl
  | cons c rest ih =>
      intro skip prev
      cases skip with
      | succ n =>
          rw [replaceAllGo_skip, replaceAllGo_skip]
          exact ih n (some c)
      | zero =>
          have e₁ : findAlt alts₁ prev (c :: rest) = findAlt alts₂ prev (c :: rest) := hF _ _
          cases e : findAlt alts₂ prev (c :: rest) with
          | none =>
              rw [replaceAllGo_no_match alts₁ m₁ b prev c rest (e₁.trans e),
                replaceAllGo_no_match alts₂ m₂ b prev c rest e, ih 0 (some c)]
          | some k =>
              cases k with
              | nil =>
                  rw [replaceAllGo_empty_match alts₁ m₁ b prev c rest (e₁.trans e),
                    replaceAllGo_empty_match alts₂ m₂ b prev c rest e,
                    applyRepl_congr m₁ m₂ b [] hL, ih 0 (some c)]
              | cons kh kt =>
                  rw [replaceAllGo_match_step alts₁ m₁ b prev c rest kh kt (e₁.trans e),
                    replaceAllGo_match_step alts₂ m₂ b prev c rest kh kt e,
                    applyRepl_congr m₁ m₂ b (kh :: kt) hL, ih kt.length (some c)]

/-- Truth of `containsByte` is list membership. -/
theorem containsByte_iff (bytes : List Nat) (x : Nat) :
    containsByte bytes x = true ↔ x ∈ bytes := by
  induction bytes with
  | nil => simp [containsByte]
  | cons y t ih =>
      simp only [containsByte, Bool.or_eq_true, beq_iff_eq, ih, List.mem_cons]
      constructor
      · rintro (rfl | h)
        · exact Or.inl rfl
        · exact Or.inr h
      · rintro (rfl | h)
        · exact Or.inl rfl
        · exact Or.inr h

/-- Membership in the symbol-byte set, element-wise. -/
theorem mem_symbolBytesOf (l : List KV) (x : Nat) :
    x ∈ symbolBytesOf l ↔ ∃ kv ∈ l, x ∈ (strBytes kv.1).filter (fun b => 127 < b) := by
  induction l with
  | nil => simp [symbolBytesOf]
  | cons kv t ih =>
      obtain ⟨k, v⟩ := kv
      simp only [symbolBytesOf, List.mem_append, ih, List.mem_cons]
      constructor
      · rintro (h | ⟨kv', h1, h2⟩)
        · exact ⟨(k, v), Or.inl rfl, h⟩
        · exact ⟨kv', Or.inr h1, h2⟩
      · rintro ⟨kv', h1 | h1, h2⟩
        · subst h1; exact Or.inl h2
        · exact Or.inr ⟨kv', h1, h2⟩

/-- Equality of two booleans follows from mutual implication of their
truth. -/
theorem bool_eq_of_iff {a b : Bool} (h : a = true ↔ b = true) : a = b := by
  cases a <;> cases b <;> simp_all

/-- The byte precheck depends only on the key set of the mapping, not on
the order its entries are stored in. -/
theorem contains_symbols_perm (l₁ l₂ : List KV) (hp : l₁.Perm l₂) (s : List Char) :
    (strBytes s).any (fun b => decide (127 < b) && containsByte (symbolBytesOf l₁) b)
      = (strBytes s).any (fun b => decide (127 < b) && containsByte (symbolBytesOf l₂) b) := by
  have hbyte : ∀ x, containsByte (symbolBytesOf l₁) x = containsByte (symbolBytesOf l₂) x := by
    intro x
    refine bool_eq_of_iff ?_
    rw [containsByte_iff, containsByte_iff, mem_symbolBytesOf, mem_symbolBytesOf]
    constructor <;> rintro ⟨kv, hkv, hx⟩
    · exact ⟨kv, hp.mem_iff.1 hkv, hx⟩
    · exact ⟨kv, hp.mem_iff.2 hkv, hx⟩
  refine bool_eq_of_iff ?_
  rw [List.any_eq_true, List.any_eq_true]
  constructor <;> rintro ⟨x, hx, hpx⟩
  · exact ⟨x, hx, by rw [hbyte x] at hpx; exact hpx⟩
  · exact ⟨x, hx, by rw [hbyte x]; exact hpx⟩

/-- The state `configure` installs for a non-empty mapping. -/
theorem configure_nonempty (l : List KV) (h : l.isEmpty = false) :
    (SymbolTranspiler.new.configure l).2
      = ⟨l, some (sortByDescLen (l.map Prod.fst)), some (symbolBytesOf l)⟩ := by
  unfold SymbolTranspiler.configure configureWith
  simp [h]

/-- C9: transpilation is a deterministic function of the mapping (as a
key→value map), the source and the bypass flag.  Two `configure` +
`transpile` runs whose mapping tables hold the same entries in any
insertion/iteration orders (`l₁.Perm l₂`, keys distinct) produce the same
result on every source and bypass flag: the symbol-byte set is
order-independent, and the compiled alternation — though its tie order on
equal-length keys may differ — selects the same match everywhere. -/
theorem transpile_deterministic (l₁ l₂ : List KV) (s : List Char) (b : Bool)
    (hp : l₁.Perm l₂) (hnd : (l₁.map Prod.fst).Nodup) :
    transpile (SymbolTranspiler.new.configure l₁).2 s b
      = transpile (SymbolTranspiler.new.configure l₂).2 s b := by
  by_cases hemp : l₁.isEmpty = true
  · obtain rfl : l₁ = [] := List.isEmpty_iff.1 hemp
    obtain rfl : l₂ = [] := hp.symm.eq_nil
    rfl
  · have hemp₁ : l₁.isEmpty = false := by
      cases h : l₁.isEmpty
      · rfl
      · exact absurd h hemp
    have hemp₂ : l₂.isEmpty = false := by
      cases h : l₂.isEmpty with
      | false => rfl
      | true =>
          obtain rfl : l₂ = [] := List.isEmpty_iff.1 h
          obtain rfl : l₁ = [] := hp.eq_nil
          exact absurd rfl hemp
    rw [configure_nonempty l₁ hemp₁, configure_nonempty l₂ hemp₂]
    have hF : ∀ prev t,
        findAlt (sortByDescLen (l₁.map Prod.fst)) prev t
          = findAlt (sortByDescLen (l₂.map Prod.fst)) prev t := by
      intro prev t
      refine findAlt_congr _ _ ?_ (sortByDescLen_pairwise _) (sortByDescLen_pairwise _) prev t
      exact (sortByDescLen_perm _).trans ((hp.map Prod.fst).trans (sortByDescLen_perm _).symm)
    have hL : ∀ k, lookupKV l₁ k = lookupKV l₂ k := lookupKV_perm l₁ l₂ hp hnd
    have hcs : contains_symbols ⟨l₁, some (sortByDescLen (l₁.map Prod.fst)),
        some (symbolBytesOf l₁)⟩ s
        = contains_symbols ⟨l₂, some (sortByDescLen (l₂.map Prod.fst)),
            some (symbolBytesOf l₂)⟩ s := by
      show (strBytes s).any _ = (strBytes s).any _
      exact contains_symbols_perm l₁ l₂ hp s
    rw [transpile, transpile, hcs]
    by_cases hc : contains_symbols ⟨l₂, some (sortByDescLen (l₂.map Prod.fst)),
        some (symbolBytesOf l₂)⟩ s = false
    · rw [if_pos hc, if_pos hc]
    · rw [if_neg hc, if_neg hc]
      show (if (replaceAll (sortByDescLen (l₁.map Prod.fst)) l₁ b s).2 then _ else
          Except.ok (replaceAll (sortByDescLen (l₁.map Prod.fst)) l₁ b s).1)
        = (if (replaceAll (sortByDescLen (l₂.map Prod.fst)) l₂ b s).2 then _ else
          Except.ok (replaceAll (sortByDescLen (l₂.map Prod.fst)) l₂ b s).1)
      rw [replaceAll, replaceAll,
        replaceAllGo_congr (sortByDescLen (l₁.map Prod.fst)) (sortByDescLen (l₂.map Prod.fst))
          l₁ l₂ b hF hL s 0 none]

/-- Witness for `transpile_deterministic`: the two-entry mapping
{"λ":"L","μ":"M"} stored in its two possible orders transpiles "λμ"
identically. -/
theorem transpile_deterministic_witness :
    ([("λ".data, "L".data), ("μ".data, "M".data)] : List KV).Perm
      [("μ".data, "M".data), ("λ".data, "L".data)] ∧
    (([("λ".data, "L".data), ("μ".data, "M".data)] : List KV).map Prod.fst).Nodup ∧
    transpile (SymbolTranspiler.new.configure [("λ".data, "L".data), ("μ".data, "M".data)]).2
        "λμ".data false
      = transpile (SymbolTranspiler.new.configure [("μ".data, "M".data), ("λ".data, "L".data)]).2
          "λμ".data false :=
  ⟨List.Perm.swap _ _ _, by decide,
    transpile_deterministic _ _ "λμ".data false (List.Perm.swap _ _ _) (by decide)⟩
